/-
A verification development for the `justdoit` todo-list persistence and
mutation engine (package `todo`, file `todo/models.go`).

The Go code is shallowly embedded: `Todo` and `TodoList` become Lean
structures, the mutation methods become pure functions on `TodoList`
(together with a `Bool` flag recording whether the method invoked `Save`),
`time.Now()` becomes an explicit `now : Int` argument (nanoseconds), and
the filesystem effects of `Save`/`Load` are modelled by explicit disk
states with failure oracles for each fallible step.
-/
import Mathlib

namespace JustDoIt

/-- `Todo` mirrors the Go struct: ID, Title, Completed, CreatedAt.
`time.Time` is modelled as an `Int` (nanoseconds since the epoch);
Go `int` is modelled as `Int` (no operation here approaches overflow). -/
structure Todo where
  id : Int
  title : String
  completed : Bool
  createdAt : Int
  deriving Repr, DecidableEq

/-- `TodoList` mirrors the Go struct: the ordered `Todos` slice and the
`NextID` counter.  The `filepath` field is not part of the persisted or
mutated state and is handled by the disk models below. -/
structure TodoList where
  todos : List Todo
  nextID : Int
  deriving Repr, DecidableEq

/-- The incomplete todos of `l`, in encounter order. -/
def incompleteOf (l : List Todo) : List Todo := l.filter (fun t => !t.completed)

/-- The completed todos of `l`, in encounter order. -/
def completedOf (l : List Todo) : List Todo := l.filter (fun t => t.completed)

/-- The single pass of `Sort` in the Go code appends every todo to one of
the two accumulator slices `incomplete` / `completed` in encounter order
and concatenates `incomplete ++ completed`; `List.partition` performs
exactly that split. -/
def sortTodos (l : List Todo) : List Todo :=
  let p := l.partition (fun t => !t.completed)
  p.1 ++ p.2

/-- `Sort` replaces `tl.Todos` by the stable partition (it also calls
`Save`; every caller of `Sort` below records that in its save flag). -/
def TodoList.Sort (tl : TodoList) : TodoList :=
  { tl with todos := sortTodos tl.todos }

/-- `tl.Todos[index].Completed = !tl.Todos[index].Completed`: flip the
completion flag of the element at position `i`, leaving the rest alone. -/
def toggleAt : List Todo → Nat → List Todo
  | [], _ => []
  | t :: rest, 0 => { t with completed := !t.completed } :: rest
  | t :: rest, n + 1 => t :: toggleAt rest n

/-- `tl.Todos[index].Title = title`: replace the title of the element at
position `i`, leaving the rest alone. -/
def updateAt : List Todo → Nat → String → List Todo
  | [], _, _ => []
  | t :: rest, 0, title => { t with title := title } :: rest
  | t :: rest, n + 1, title => t :: updateAt rest n title

/-- `Add(title)`: build a todo with ID `NextID`, prepend it, increment
`NextID`, then `Sort` (which saves — flag `true`). -/
def TodoList.Add (tl : TodoList) (title : String) (now : Int) : TodoList × Bool :=
  let todo : Todo := { id := tl.nextID, title := title, completed := false, createdAt := now }
  (TodoList.Sort { tl with todos := todo :: tl.todos, nextID := tl.nextID + 1 }, true)

/-- `Insert(index, title)`: build a todo with ID `NextID`, increment
`NextID`, always prepend (the index parameter is never read), then `Sort`. -/
def TodoList.Insert (tl : TodoList) (index : Int) (title : String) (now : Int) : TodoList × Bool :=
  let todo : Todo := { id := tl.nextID, title := title, completed := false, createdAt := now }
  let tl' : TodoList := { tl with nextID := tl.nextID + 1 }
  (TodoList.Sort { tl' with todos := todo :: tl'.todos }, true)

/-- `Delete(index)`: when `0 <= index < len(Todos)`, drop the element at
`index` (`append(Todos[:index], Todos[index+1:]...)`) and `Save`;
otherwise do nothing (no save). -/
def TodoList.Delete (tl : TodoList) (index : Int) : TodoList × Bool :=
  if 0 ≤ index ∧ index < (tl.todos.length : Int) then
    ({ tl with todos := tl.todos.take index.toNat ++ tl.todos.drop (index.toNat + 1) }, true)
  else (tl, false)

/-- `Toggle(index)`: when in range, flip the flag at `index` and `Sort`
(which saves); otherwise do nothing. -/
def TodoList.Toggle (tl : TodoList) (index : Int) : TodoList × Bool :=
  if 0 ≤ index ∧ index < (tl.todos.length : Int) then
    (TodoList.Sort { tl with todos := toggleAt tl.todos index.toNat }, true)
  else (tl, false)

/-- `Update(index, title)`: when in range, replace the title at `index`
and `Save`; otherwise do nothing.  No re-sort. -/
def TodoList.Update (tl : TodoList) (index : Int) (title : String) : TodoList × Bool :=
  if 0 ≤ index ∧ index < (tl.todos.length : Int) then
    ({ tl with todos := updateAt tl.todos index.toNat title }, true)
  else (tl, false)

/-- One mutation call on the store. -/
inductive Op where
  | add (title : String) (now : Int)
  | insert (index : Int) (title : String) (now : Int)
  | delete (index : Int)
  | toggle (index : Int)
  | update (index : Int) (title : String)
  deriving Repr, DecidableEq

/-- Apply a mutation; the `Bool` records whether the operation wrote
(called `Save`, directly or through `Sort`). -/
def applyOpT (tl : TodoList) : Op → TodoList × Bool
  | Op.add title now => tl.Add title now
  | Op.insert index title now => tl.Insert index title now
  | Op.delete index => tl.Delete index
  | Op.toggle index => tl.Toggle index
  | Op.update index title => tl.Update index title

/-- The in-memory state after a mutation. -/
def applyOp (tl : TodoList) (op : Op) : TodoList := (applyOpT tl op).1

/-- `NewTodoList` on a path with no existing file: empty slice, `NextID = 1`. -/
def NewTodoList : TodoList := { todos := [], nextID := 1 }

/-- Store states reachable from the fresh empty store by mutations. -/
inductive Reachable : TodoList → Prop where
  | init : Reachable NewTodoList
  | step {tl : TodoList} (h : Reachable tl) (op : Op) : Reachable (applyOp tl op)

/-- `l` splits into a contiguous block of incomplete todos followed by a
contiguous block of completed todos. -/
def IsPartitioned (l : List Todo) : Prop :=
  ∃ a b, l = a ++ b ∧ (∀ t ∈ a, t.completed = false) ∧ (∀ t ∈ b, t.completed = true)

/-- Pairwise form of the partition invariant: once a completed todo
appears, everything after it is completed. -/
def PartOK (l : List Todo) : Prop :=
  l.Pairwise (fun a b => a.completed = true → b.completed = true)

theorem sortTodos_eq_filter (l : List Todo) :
    sortTodos l = incompleteOf l ++ completedOf l := by
  simp only [sortTodos, List.partition_eq_filter_filter, incompleteOf, completedOf,
    Function.comp_def, Bool.not_not]

theorem incompleteOf_append (a b : List Todo) :
    incompleteOf (a ++ b) = incompleteOf a ++ incompleteOf b := by
  simp [incompleteOf]

theorem completedOf_append (a b : List Todo) :
    completedOf (a ++ b) = completedOf a ++ completedOf b := by
  simp [completedOf]

theorem incompleteOf_sortTodos (l : List Todo) :
    incompleteOf (sortTodos l) = incompleteOf l := by
  rw [sortTodos_eq_filter, incompleteOf_append]
  simp [incompleteOf, completedOf, List.filter_filter]

theorem completedOf_sortTodos (l : List Todo) :
    completedOf (sortTodos l) = completedOf l := by
  rw [sortTodos_eq_filter, completedOf_append]
  simp [incompleteOf, completedOf, List.filter_filter]

theorem isPartitioned_sortTodos (l : List Todo) : IsPartitioned (sortTodos l) := by
  refine ⟨incompleteOf l, completedOf l, sortTodos_eq_filter l, ?_, ?_⟩
  · intro t ht
    have := List.of_mem_filter ht
    simpa using this
  · intro t ht
    exact List.of_mem_filter ht

/-- Claim C1: `Sort()` is a stable partition — afterwards every incomplete
todo precedes every completed todo, and each of the two groups contains
exactly the todos it contained before, in the same relative order. -/
theorem sort_stable_partition (tl : TodoList) :
    IsPartitioned (tl.Sort).todos ∧
      incompleteOf (tl.Sort).todos = incompleteOf tl.todos ∧
      completedOf (tl.Sort).todos = completedOf tl.todos :=
  ⟨isPartitioned_sortTodos tl.todos, incompleteOf_sortTodos tl.todos,
    completedOf_sortTodos tl.todos⟩

/-- Claim C10: `Sort()` only reorders — the resulting todos are a
permutation of the previous ones (no todo added, dropped, duplicated or
modified) and `NextID` is unchanged. -/
theorem sort_frame_perm (tl : TodoList) :
    (tl.Sort).todos.Perm tl.todos ∧ (tl.Sort).nextID = tl.nextID := by
  refine ⟨?_, rfl⟩
  show List.Perm (sortTodos tl.todos) tl.todos
  rw [sortTodos_eq_filter]
  have h := List.filter_append_perm (fun t : Todo => !t.completed) tl.todos
  have hc : completedOf tl.todos =
      tl.todos.filter (fun t => !(!t.completed)) := by
    simp [completedOf]
  rw [incompleteOf, hc]
  exact h

/-! ## Persistence model

`encoding/json` is modelled at the level of a JSON syntax tree: the bytes
written by `MarshalIndent` are represented by the `Json` value they
denote (the rendering to indented text and its re-parsing are Go's
standard library, injective on this AST, and are not repository code).
A `created_at` RFC 3339 timestamp string is represented by the `Int`
nanosecond value it denotes, which that format round-trips exactly. -/

/-- JSON values. -/
inductive Json where
  | null : Json
  | bool (b : Bool) : Json
  | num (n : Int) : Json
  | str (s : String) : Json
  | arr (xs : List Json) : Json
  | obj (fields : List (String × Json)) : Json

/-- First field of the object bound to key `k`. -/
def lookupField : List (String × Json) → String → Option Json
  | [], _ => none
  | (k', v) :: rest, k => if k' = k then some v else lookupField rest k

/-- Field lookup on a JSON value. -/
def Json.lookup : Json → String → Option Json
  | Json.obj fields, k => lookupField fields k
  | _, _ => none

/-- Marshalling one `Todo`: the struct tags give keys
`id`, `title`, `completed`, `created_at`, in declaration order. -/
def marshalTodo (t : Todo) : Json :=
  Json.obj
    [("id", Json.num t.id), ("title", Json.str t.title),
     ("completed", Json.bool t.completed), ("created_at", Json.num t.createdAt)]

/-- Marshalling the whole list: keys `todos` and `next_id`
(`filepath` is unexported and not serialized). -/
def marshalTodoList (tl : TodoList) : Json :=
  Json.obj
    [("todos", Json.arr (tl.todos.map marshalTodo)),
     ("next_id", Json.num tl.nextID)]

/-- Unmarshalling one element of the `todos` array.  As in Go, a missing
field keeps its zero value and a field of the wrong type is an error. -/
def unmarshalTodo (j : Json) : Option Todo :=
  match j with
  | Json.obj _ =>
    let idOpt := match j.lookup "id" with
      | none => some (0 : Int)
      | some (Json.num n) => some n
      | some _ => none
    let titleOpt := match j.lookup "title" with
      | none => some ""
      | some (Json.str s) => some s
      | some _ => none
    let completedOpt := match j.lookup "completed" with
      | none => some false
      | some (Json.bool b) => some b
      | some _ => none
    let createdOpt := match j.lookup "created_at" with
      | none => some (0 : Int)
      | some (Json.num n) => some n
      | some _ => none
    match idOpt, titleOpt, completedOpt, createdOpt with
    | some i, some s, some c, some d =>
        some { id := i, title := s, completed := c, createdAt := d }
    | _, _, _, _ => none
  | _ => none

/-- Unmarshalling the `todos` array elementwise. -/
def unmarshalTodos : List Json → Option (List Todo)
  | [] => some []
  | j :: rest =>
    match unmarshalTodo j, unmarshalTodos rest with
    | some t, some ts => some (t :: ts)
    | _, _ => none

/-- Unmarshalling into an existing `tl` (Go `json.Unmarshal` overwrites
the fields present in the object and keeps the others). -/
def unmarshalTodoList (tl : TodoList) (j : Json) : Option TodoList :=
  match j with
  | Json.obj _ =>
    let todosOpt := match j.lookup "todos" with
      | none => some tl.todos
      | some (Json.arr xs) => unmarshalTodos xs
      | some _ => none
    let nextOpt := match j.lookup "next_id" with
      | none => some tl.nextID
      | some (Json.num n) => some n
      | some _ => none
    match todosOpt, nextOpt with
    | some ts, some n => some { todos := ts, nextID := n }
    | _, _ => none
  | _ => none

/-- Bytes of a file: either syntactically valid JSON (represented by its
value) or bytes that do not parse as JSON at all. -/
inductive FileData where
  | json (j : Json) : FileData
  | raw (s : String) : FileData

/-- `json.Unmarshal(data, tl)`: fails on invalid syntax, otherwise
decodes the object over the existing `tl`. -/
def parseFileData (tl : TodoList) : FileData → Option TodoList
  | FileData.raw _ => none
  | FileData.json j => unmarshalTodoList tl j

/-- Which step of `Save` the environment makes fail. -/
inductive SaveFail where
  | none | createTemp | write | close | rename
  deriving Repr, DecidableEq

/-- The error `Save` returns, by failing step. -/
inductive SaveErr where
  | createTempFailed | writeFailed | closeFailed | renameFailed
  deriving Repr, DecidableEq

/-- Outcome of one `Save` call: its return value, the content at the
target path afterwards, and the content at the temp path afterwards
(`none` = the temp file does not exist; it does not exist before the
call either, since `os.CreateTemp` picks a fresh name). -/
structure SaveResult where
  res : Except SaveErr Unit
  target : Option FileData
  temp : Option FileData

/-- `Save()` step by step: marshal (cannot fail for this struct), create
the temp file, write the data, close, rename over the target.  Every
failure path removes the temp file and leaves the target alone; only the
final rename changes the target, installing the full marshalled data. -/
def TodoList.Save (tl : TodoList) (fail : SaveFail) (target : Option FileData) : SaveResult :=
  let data := marshalTodoList tl
  -- tmpFile, err := os.CreateTemp(dir, ".tui_todo_*.tmp")
  if fail = SaveFail.createTemp then
    { res := Except.error SaveErr.createTempFailed, target := target, temp := none }
  else
    -- _, err := tmpFile.Write(data)
    if fail = SaveFail.write then
      -- tmpFile.Close(); os.Remove(tmpPath)
      { res := Except.error SaveErr.writeFailed, target := target, temp := none }
    else
      let tempContent : Option FileData := some (FileData.json data)
      -- err := tmpFile.Close()
      if fail = SaveFail.close then
        -- os.Remove(tmpPath)
        { res := Except.error SaveErr.closeFailed, target := target, temp := none }
      else
        -- err := os.Rename(tmpPath, tl.filepath)
        if fail = SaveFail.rename then
          -- os.Remove(tmpPath)
          { res := Except.error SaveErr.renameFailed, target := target, temp := none }
        else
          { res := Except.ok (), target := tempContent, temp := none }

/-- The error `Load` returns. -/
inductive LoadErr where
  | readFailed | corruptedBackedUp | corruptedBackupFailed
  deriving Repr, DecidableEq

/-- Disk as `Load` sees it: the file at `tl.filepath` and the file at
`tl.filepath + ".corrupted"`. -/
structure LoadDisk where
  main : Option FileData
  corrupted : Option FileData

/-- `Load()`: read the file (absence is fine, other read errors surface);
parse it; on parse failure write the raw bytes to the `.corrupted`
sibling and return an error saying whether that backup succeeded.
`readFails` / `backupFails` are the environment's failure oracles. -/
def TodoList.Load (tl : TodoList) (readFails backupFails : Bool) (disk : LoadDisk) :
    Except LoadErr TodoList × LoadDisk :=
  -- data, err := os.ReadFile(tl.filepath)
  if readFails then (Except.error LoadErr.readFailed, disk)
  else
    match disk.main with
    | none => (Except.ok tl, disk)
    | some data =>
      match parseFileData tl data with
      | some tl' => (Except.ok tl', disk)
      | none =>
        -- backupErr := os.WriteFile(backupPath, data, 0644)
        if backupFails then (Except.error LoadErr.corruptedBackupFailed, disk)
        else (Except.error LoadErr.corruptedBackedUp,
              { disk with corrupted := some data })

/-- In-memory state plus target-file content across a mutation: a
mutation that calls `Save` rewrites the file with the marshalled new
state, one that does not leaves the file alone (the successful-save
path; `Save` failures are covered by `TodoList.Save` itself). -/
def applyOpFS (tl : TodoList) (file : Option FileData) (op : Op) :
    TodoList × Option FileData :=
  let r := applyOpT tl op
  (r.1, if r.2 then some (FileData.json (marshalTodoList r.1)) else file)

/-- Claim C3: every failure point of `Save` — temp creation, write,
close, rename — returns the matching error, leaves the target file's
content untouched, and leaves no temp file behind; a successful `Save`
also leaves no temp file and its only effect on the target is installing
the complete marshalled data via the rename, so a partial write is never
visible at the target path. -/
theorem save_atomic (tl : TodoList) (fail : SaveFail) (target : Option FileData) :
    TodoList.Save tl fail target =
      { res := match fail with
          | SaveFail.none => Except.ok ()
          | SaveFail.createTemp => Except.error SaveErr.createTempFailed
          | SaveFail.write => Except.error SaveErr.writeFailed
          | SaveFail.close => Except.error SaveErr.closeFailed
          | SaveFail.rename => Except.error SaveErr.renameFailed,
        target := match fail with
          | SaveFail.none => some (FileData.json (marshalTodoList tl))
          | _ => target,
        temp := none } := by
  cases fail <;> rfl

theorem unmarshalTodo_marshalTodo (t : Todo) :
    unmarshalTodo (marshalTodo t) = some t := by
  rfl

theorem unmarshalTodos_marshal (l : List Todo) :
    unmarshalTodos (l.map marshalTodo) = some l := by
  induction l with
  | nil => rfl
  | cons t rest ih =>
    simp only [List.map_cons, unmarshalTodos, unmarshalTodo_marshalTodo t, ih]

theorem unmarshal_marshal (tl0 tl : TodoList) :
    unmarshalTodoList tl0 (marshalTodoList tl) =
      some { todos := tl.todos, nextID := tl.nextID } := by
  have h : unmarshalTodoList tl0 (marshalTodoList tl) =
      (match unmarshalTodos (tl.todos.map marshalTodo), some tl.nextID with
       | some ts, some n => some { todos := ts, nextID := (n : Int) }
       | _, _ => none) := rfl
  rw [h, unmarshalTodos_marshal]

/-- Claim C4: `Save` on any store state followed by `Open` of the same
path (a fresh `NewTodoList` whose construction runs `Load`) succeeds and
reproduces the same `todos` — ids, titles, flags, timestamps, order —
and the same `nextID`; the disk is not modified by the load. -/
theorem save_load_roundtrip (tl : TodoList) (target corrupted : Option FileData) :
    TodoList.Load NewTodoList false false
        { main := (TodoList.Save tl SaveFail.none target).target, corrupted := corrupted } =
      (Except.ok { todos := tl.todos, nextID := tl.nextID },
        { main := (TodoList.Save tl SaveFail.none target).target, corrupted := corrupted }) := by
  have hsave : (TodoList.Save tl SaveFail.none target).target =
      some (FileData.json (marshalTodoList tl)) := rfl
  rw [TodoList.Load, hsave]
  simp only [Bool.false_eq_true, if_false, parseFileData,
    unmarshal_marshal NewTodoList tl]

/-- Claim C6: loading a file whose content fails to parse always returns
an error and never silently discards the bytes: if the backup write
succeeds, `path + ".corrupted"` now holds exactly the original malformed
content and the error is the "backed up" one; if the backup write fails,
the error is the distinct "backup failed" one and the disk is unchanged.
The malformed file itself is left in place either way. -/
theorem load_corruption_backup (tl : TodoList) (data : FileData)
    (corrupted : Option FileData) (backupFails : Bool)
    (hbad : parseFileData tl data = none) :
    TodoList.Load tl false backupFails { main := some data, corrupted := corrupted } =
      (if backupFails then
        (Except.error LoadErr.corruptedBackupFailed,
          { main := some data, corrupted := corrupted })
       else
        (Except.error LoadErr.corruptedBackedUp,
          { main := some data, corrupted := some data })) := by
  rw [TodoList.Load]
  simp only [Bool.false_eq_true, if_false, hbad]

/-- Witness for C6 at a concrete malformed file. -/
theorem load_corruption_backup_witness :
    parseFileData NewTodoList (FileData.raw "not json") = none ∧
      TodoList.Load NewTodoList false false
          { main := some (FileData.raw "not json"), corrupted := none } =
        (Except.error LoadErr.corruptedBackedUp,
          { main := some (FileData.raw "not json"),
            corrupted := some (FileData.raw "not json") }) := by
  refine ⟨rfl, ?_⟩
  have h := load_corruption_backup NewTodoList (FileData.raw "not json") none false rfl
  simpa using h

/-- Claim C8: `Insert(index, title)` produces exactly the state `Add(title)`
produces — same todos, same `nextID`, same save behaviour; the index
parameter has no effect and the new todo ends up at the top of the
incomplete section (via the final `Sort`). -/
theorem insert_equals_add (tl : TodoList) (index : Int) (title : String) (now : Int) :
    tl.Insert index title now = tl.Add title now := rfl

/-- Claim C7: an out-of-range index (negative or `≥ len(items)`) makes
`Delete`, `Toggle` and `Update` return without error, leave the todos and
`nextID` unchanged, call no `Save` (flag `false`), and leave the backing
file's content unchanged. -/
theorem out_of_range_noop (tl : TodoList) (index : Int) (title : String)
    (file : Option FileData) (h : index < 0 ∨ (tl.todos.length : Int) ≤ index) :
    tl.Delete index = (tl, false) ∧ tl.Toggle index = (tl, false) ∧
      tl.Update index title = (tl, false) ∧
      (applyOpFS tl file (Op.delete index)).2 = file ∧
      (applyOpFS tl file (Op.toggle index)).2 = file ∧
      (applyOpFS tl file (Op.update index title)).2 = file := by
  have hguard : ¬(0 ≤ index ∧ index < (tl.todos.length : Int)) := by
    rcases h with h | h <;> omega
  have hd : tl.Delete index = (tl, false) := by rw [TodoList.Delete, if_neg hguard]
  have ht : tl.Toggle index = (tl, false) := by rw [TodoList.Toggle, if_neg hguard]
  have hu : tl.Update index title = (tl, false) := by rw [TodoList.Update, if_neg hguard]
  refine ⟨hd, ht, hu, ?_, ?_, ?_⟩ <;>
    simp [applyOpFS, applyOpT, hd, ht, hu]

/-- Witness for C7: a one-element store with index `-1`. -/
theorem out_of_range_noop_witness :
    (((-1 : Int) < 0 ∨ ((TodoList.mk [Todo.mk 1 "a" false 0] 2).todos.length : Int) ≤ -1) ∧
      ((TodoList.mk [Todo.mk 1 "a" false 0] 2).Delete (-1) =
          (TodoList.mk [Todo.mk 1 "a" false 0] 2, false) ∧
        (TodoList.mk [Todo.mk 1 "a" false 0] 2).Toggle (-1) =
          (TodoList.mk [Todo.mk 1 "a" false 0] 2, false) ∧
        (TodoList.mk [Todo.mk 1 "a" false 0] 2).Update (-1) "x" =
          (TodoList.mk [Todo.mk 1 "a" false 0] 2, false) ∧
        (applyOpFS (TodoList.mk [Todo.mk 1 "a" false 0] 2) none (Op.delete (-1))).2 = none ∧
        (applyOpFS (TodoList.mk [Todo.mk 1 "a" false 0] 2) none (Op.toggle (-1))).2 = none ∧
        (applyOpFS (TodoList.mk [Todo.mk 1 "a" false 0] 2) none
            (Op.update (-1) "x")).2 = none)) :=
  ⟨Or.inl (by decide),
    out_of_range_noop (TodoList.mk [Todo.mk 1 "a" false 0] 2) (-1) "x" none
      (Or.inl (by decide))⟩

theorem mem_updateAt {t : Todo} :
    ∀ {l : List Todo} {i : Nat} {title : String}, t ∈ updateAt l i title →
      ∃ u ∈ l, t.completed = u.completed := by
  intro l
  induction l with
  | nil => intro i title h; simp [updateAt] at h
  | cons u rest ih =>
    intro i title h
    cases i with
    | zero =>
      rcases List.mem_cons.mp h with h | h
      · exact ⟨u, List.mem_cons_self u rest, by rw [h]⟩
      · exact ⟨t, List.mem_cons_of_mem u h, rfl⟩
    | succ n =>
      rcases List.mem_cons.mp h with h | h
      · exact ⟨u, List.mem_cons_self u rest, by rw [h]⟩
      · rcases ih h with ⟨v, hv, hc⟩
        exact ⟨v, List.mem_cons_of_mem u hv, hc⟩

theorem partOK_nil : PartOK [] := List.Pairwise.nil

theorem partOK_of_all_false {l : List Todo} (h : ∀ t ∈ l, t.completed = false) :
    PartOK l := by
  induction l with
  | nil => exact partOK_nil
  | cons t rest ih =>
    refine List.Pairwise.cons ?_ (ih fun u hu => h u (List.mem_cons_of_mem t hu))
    intro u _ hc
    rw [h t (List.mem_cons_self t rest)] at hc
    exact absurd hc (by simp)

theorem partOK_of_all_true {l : List Todo} (h : ∀ t ∈ l, t.completed = true) :
    PartOK l := by
  induction l with
  | nil => exact partOK_nil
  | cons t rest ih =>
    exact List.Pairwise.cons
      (fun u hu _ => h u (List.mem_cons_of_mem t hu))
      (ih fun u hu => h u (List.mem_cons_of_mem t hu))

theorem partOK_iff (l : List Todo) : PartOK l ↔ IsPartitioned l := by
  constructor
  · intro hp
    induction l with
    | nil => exact ⟨[], [], rfl, by simp, by simp⟩
    | cons t rest ih =>
      rw [PartOK, List.pairwise_cons] at hp
      rcases hp with ⟨hhead, htail⟩
      rcases ih htail with ⟨a, b, heq, ha, hb⟩
      cases hc : t.completed with
      | false =>
        refine ⟨t :: a, b, by simp [heq], ?_, hb⟩
        intro u hu
        rcases List.mem_cons.mp hu with h | h
        · rw [h]; exact hc
        · exact ha u h
      | true =>
        refine ⟨[], t :: rest, rfl, by simp, ?_⟩
        intro u hu
        rcases List.mem_cons.mp hu with h | h
        · rw [h]; exact hc
        · exact hhead u h hc
  · rintro ⟨a, b, rfl, ha, hb⟩
    rw [PartOK, List.pairwise_append]
    exact ⟨partOK_of_all_false ha, partOK_of_all_true hb,
      fun x _ y hy _ => hb y hy⟩

theorem partOK_sortTodos (l : List Todo) : PartOK (sortTodos l) :=
  (partOK_iff (sortTodos l)).mpr (isPartitioned_sortTodos l)

theorem partOK_updateAt {l : List Todo} (hp : PartOK l) :
    ∀ (i : Nat) (title : String), PartOK (updateAt l i title) := by
  induction l with
  | nil => intro i title; exact partOK_nil
  | cons t rest ih =>
    intro i title
    rw [PartOK, List.pairwise_cons] at hp
    rcases hp with ⟨hhead, htail⟩
    cases i with
    | zero =>
      refine List.Pairwise.cons ?_ htail
      intro u hu hc
      exact hhead u hu hc
    | succ n =>
      refine List.Pairwise.cons ?_ (ih htail n title)
      intro u hu hc
      rcases mem_updateAt hu with ⟨v, hv, hvc⟩
      rw [hvc]
      exact hhead v hv hc

theorem take_append_drop_succ_sublist (l : List Todo) (i : Nat) :
    (l.take i ++ l.drop (i + 1)).Sublist l := by
  rw [← List.eraseIdx_eq_take_drop_succ]
  exact List.eraseIdx_sublist l i

/-- One mutation preserves the partition invariant of the in-memory todos. -/
theorem partOK_step {tl : TodoList} (hp : PartOK tl.todos) (op : Op) :
    PartOK (applyOp tl op).todos := by
  cases op with
  | add title now => exact partOK_sortTodos _
  | insert index title now => exact partOK_sortTodos _
  | delete index =>
    simp only [applyOp, applyOpT, TodoList.Delete]
    split
    · exact List.Pairwise.sublist (take_append_drop_succ_sublist tl.todos index.toNat) hp
    · exact hp
  | toggle index =>
    simp only [applyOp, applyOpT, TodoList.Toggle]
    split
    · exact partOK_sortTodos _
    · exact hp
  | update index title =>
    simp only [applyOp, applyOpT, TodoList.Update]
    split
    · exact partOK_updateAt hp index.toNat title
    · exact hp

/-- Every store state reachable by mutations satisfies the invariant. -/
theorem reachable_partOK {tl : TodoList} (h : Reachable tl) : PartOK tl.todos := by
  induction h with
  | init => exact partOK_nil
  | step _ op ih => exact partOK_step ih op

theorem map_id_toggleAt (l : List Todo) :
    ∀ i : Nat, (toggleAt l i).map Todo.id = l.map Todo.id := by
  induction l with
  | nil => intro i; rfl
  | cons t rest ih =>
    intro i
    cases i with
    | zero => simp [toggleAt]
    | succ n => simp [toggleAt, ih n]

theorem map_id_updateAt (l : List Todo) :
    ∀ (i : Nat) (title : String), (updateAt l i title).map Todo.id = l.map Todo.id := by
  induction l with
  | nil => intro i title; rfl
  | cons t rest ih =>
    intro i title
    cases i with
    | zero => simp [updateAt]
    | succ n => simp [updateAt, ih n]

theorem incompleteOf_sublist (l : List Todo) : (incompleteOf l).Sublist l :=
  List.filter_sublist l

theorem completedOf_sublist (l : List Todo) : (completedOf l).Sublist l :=
  List.filter_sublist l

theorem ids_incomplete_sub_of_map_eq {x y : List Todo}
    (h : x.map Todo.id = y.map Todo.id) (q : Int → Bool) :
    (((incompleteOf x).map Todo.id).filter q).Sublist (y.map Todo.id) := by
  have h1 : ((incompleteOf x).map Todo.id).Sublist (x.map Todo.id) :=
    (incompleteOf_sublist x).map _
  rw [h] at h1
  exact (List.filter_sublist _).trans h1

theorem ids_incomplete_sub_of_sublist {x y : List Todo} (hxy : x.Sublist y)
    (q : Int → Bool) :
    (((incompleteOf x).map Todo.id).filter q).Sublist (y.map Todo.id) :=
  (List.filter_sublist _).trans (((incompleteOf_sublist x).trans hxy).map _)

theorem ids_completed_sub_of_map_eq {x y : List Todo}
    (h : x.map Todo.id = y.map Todo.id) :
    ((completedOf x).map Todo.id).Sublist (y.map Todo.id) := by
  have h1 : ((completedOf x).map Todo.id).Sublist (x.map Todo.id) :=
    (completedOf_sublist x).map _
  rw [h] at h1
  exact h1

theorem ids_completed_sub_of_sublist {x y : List Todo} (hxy : x.Sublist y) :
    ((completedOf x).map Todo.id).Sublist (y.map Todo.id) :=
  ((completedOf_sublist x).trans hxy).map _

theorem incompleteOf_cons_incomplete {todo : Todo} (h : todo.completed = false)
    (l : List Todo) : incompleteOf (todo :: l) = todo :: incompleteOf l := by
  simp [incompleteOf, h]

theorem completedOf_cons_incomplete {todo : Todo} (h : todo.completed = false)
    (l : List Todo) : completedOf (todo :: l) = completedOf l := by
  simp [completedOf, h]

theorem filter_ne_cons_self (k : Int) (xs : List Int) :
    (k :: xs).filter (fun i => decide (i ≠ k)) = xs.filter (fun i => decide (i ≠ k)) := by
  simp

/-- The incomplete block after a mutation, with the freshly assigned id
removed, is a subsequence of the previous todos (by id). -/
theorem stable_incomplete_block (s : TodoList) (op : Op) :
    ((((incompleteOf (applyOp s op).todos).map Todo.id).filter
      (fun i => decide (i ≠ s.nextID))).Sublist (s.todos.map Todo.id)) := by
  cases op with
  | add title now =>
    rw [show (applyOp s (Op.add title now)).todos =
        sortTodos (Todo.mk s.nextID title false now :: s.todos) from rfl,
      incompleteOf_sortTodos, incompleteOf_cons_incomplete rfl, List.map_cons,
      filter_ne_cons_self]
    exact ids_incomplete_sub_of_sublist (List.Sublist.refl s.todos) _
  | insert index title now =>
    rw [show (applyOp s (Op.insert index title now)).todos =
        sortTodos (Todo.mk s.nextID title false now :: s.todos) from rfl,
      incompleteOf_sortTodos, incompleteOf_cons_incomplete rfl, List.map_cons,
      filter_ne_cons_self]
    exact ids_incomplete_sub_of_sublist (List.Sublist.refl s.todos) _
  | delete index =>
    simp only [applyOp, applyOpT, TodoList.Delete]
    split
    · exact ids_incomplete_sub_of_sublist
        (take_append_drop_succ_sublist s.todos index.toNat) _
    · exact ids_incomplete_sub_of_sublist (List.Sublist.refl s.todos) _
  | toggle index =>
    simp only [applyOp, applyOpT, TodoList.Toggle]
    split
    · rw [show (TodoList.Sort { s with todos := toggleAt s.todos index.toNat }).todos =
          sortTodos (toggleAt s.todos index.toNat) from rfl, incompleteOf_sortTodos]
      exact ids_incomplete_sub_of_map_eq (map_id_toggleAt s.todos index.toNat) _
    · exact ids_incomplete_sub_of_sublist (List.Sublist.refl s.todos) _
  | update index title =>
    simp only [applyOp, applyOpT, TodoList.Update]
    split
    · exact ids_incomplete_sub_of_map_eq (map_id_updateAt s.todos index.toNat title) _
    · exact ids_incomplete_sub_of_sublist (List.Sublist.refl s.todos) _

/-- The completed block after a mutation is a subsequence of the previous
todos (by id) — no mutation creates a completed todo. -/
theorem stable_completed_block (s : TodoList) (op : Op) :
    (((completedOf (applyOp s op).todos).map Todo.id).Sublist
      (s.todos.map Todo.id)) := by
  cases op with
  | add title now =>
    rw [show (applyOp s (Op.add title now)).todos =
        sortTodos (Todo.mk s.nextID title false now :: s.todos) from rfl,
      completedOf_sortTodos, completedOf_cons_incomplete rfl]
    exact ids_completed_sub_of_sublist (List.Sublist.refl s.todos)
  | insert index title now =>
    rw [show (applyOp s (Op.insert index title now)).todos =
        sortTodos (Todo.mk s.nextID title false now :: s.todos) from rfl,
      completedOf_sortTodos, completedOf_cons_incomplete rfl]
    exact ids_completed_sub_of_sublist (List.Sublist.refl s.todos)
  | delete index =>
    simp only [applyOp, applyOpT, TodoList.Delete]
    split
    · exact ids_completed_sub_of_sublist
        (take_append_drop_succ_sublist s.todos index.toNat)
    · exact ids_completed_sub_of_sublist (List.Sublist.refl s.todos)
  | toggle index =>
    simp only [applyOp, applyOpT, TodoList.Toggle]
    split
    · rw [show (TodoList.Sort { s with todos := toggleAt s.todos index.toNat }).todos =
          sortTodos (toggleAt s.todos index.toNat) from rfl, completedOf_sortTodos]
      exact ids_completed_sub_of_map_eq (map_id_toggleAt s.todos index.toNat)
    · exact ids_completed_sub_of_sublist (List.Sublist.refl s.todos)
  | update index title =>
    simp only [applyOp, applyOpT, TodoList.Update]
    split
    · exact ids_completed_sub_of_map_eq (map_id_updateAt s.todos index.toNat title)
    · exact ids_completed_sub_of_sublist (List.Sublist.refl s.todos)

/-- Claim C2: from any state reachable from the empty store, every single
mutation (`Add`, `Insert`, `Delete`, `Toggle`, `Update` — including the
two that do not call `Sort`) leaves the todos partitioned into a
contiguous incomplete block followed by a contiguous completed block,
and within each block the pre-existing todos (everything except the id
the mutation may have freshly assigned) keep the relative order they had
before the mutation. -/
theorem mutation_stable_partition (s : TodoList) (hs : Reachable s) (op : Op) :
    IsPartitioned (applyOp s op).todos ∧
      ((((incompleteOf (applyOp s op).todos).map Todo.id).filter
          (fun i => decide (i ≠ s.nextID))).Sublist (s.todos.map Todo.id)) ∧
      (((completedOf (applyOp s op).todos).map Todo.id).Sublist
        (s.todos.map Todo.id)) :=
  ⟨(partOK_iff _).mp (partOK_step (reachable_partOK hs) op),
    stable_incomplete_block s op, stable_completed_block s op⟩

/-- Witness for C2: the first `Add` on the fresh empty store. -/
theorem mutation_stable_partition_witness :
    Reachable NewTodoList ∧
      (IsPartitioned (applyOp NewTodoList (Op.add "x" 0)).todos ∧
        ((((incompleteOf (applyOp NewTodoList (Op.add "x" 0)).todos).map Todo.id).filter
            (fun i => decide (i ≠ NewTodoList.nextID))).Sublist
          (NewTodoList.todos.map Todo.id)) ∧
        (((completedOf (applyOp NewTodoList (Op.add "x" 0)).todos).map Todo.id).Sublist
          (NewTodoList.todos.map Todo.id))) :=
  ⟨Reachable.init, mutation_stable_partition NewTodoList Reachable.init (Op.add "x" 0)⟩

/-! ## Id assignment (claim C5) -/

/-- An interleaving of `Add` and `Delete` calls. -/
inductive ADOp where
  | add (title : String) (now : Int)
  | delete (index : Int)

/-- Run one `Add`-or-`Delete` call. -/
def applyAD (tl : TodoList) : ADOp → TodoList
  | ADOp.add title now => (tl.Add title now).1
  | ADOp.delete index => (tl.Delete index).1

/-- The ids handed out to the newly created todos, in call order: `Add`
stamps the new todo with the current `NextID` (see `TodoList.Add`). -/
def assignedIds (tl : TodoList) : List ADOp → List Int
  | [] => []
  | ADOp.add title now :: rest =>
      tl.nextID :: assignedIds (applyAD tl (ADOp.add title now)) rest
  | ADOp.delete index :: rest => assignedIds (applyAD tl (ADOp.delete index)) rest

/-- How many `Add` calls the interleaving contains. -/
def numAdds : List ADOp → Nat
  | [] => 0
  | ADOp.add _ _ :: rest => numAdds rest + 1
  | ADOp.delete _ :: rest => numAdds rest

theorem add_nextID (tl : TodoList) (title : String) (now : Int) :
    ((tl.Add title now).1).nextID = tl.nextID + 1 := rfl

theorem delete_nextID (tl : TodoList) (index : Int) :
    ((tl.Delete index).1).nextID = tl.nextID := by
  rw [TodoList.Delete]
  split <;> rfl

theorem range_map_shift (k : Int) (n : Nat) :
    (List.range (n + 1)).map (fun i : Nat => k + (i : Int)) =
      k :: (List.range n).map (fun i : Nat => (k + 1) + (i : Int)) := by
  rw [List.range_succ_eq_map, List.map_cons, List.map_map]
  have h1 : k + ((0 : Nat) : Int) = k := by simp
  have h2 : ((fun i : Nat => k + (i : Int)) ∘ Nat.succ) =
      (fun i : Nat => (k + 1) + (i : Int)) := by
    funext i
    simp only [Function.comp]
    push_cast
    ring
  rw [h1, h2]

/-- Claim C5: starting from `nextId = k`, any interleaving of `N` `Add`
calls with arbitrary `Delete` calls assigns the new todos exactly the ids
`k, k + 1, ..., k + N - 1`, in order, each exactly once; `Delete` never
modifies `NextID`, so no deleted id is ever handed out again. -/
theorem id_monotonic_assignment (tl : TodoList) (ops : List ADOp) :
    assignedIds tl ops =
        (List.range (numAdds ops)).map (fun i : Nat => tl.nextID + (i : Int)) ∧
      ∀ index : Int, ((tl.Delete index).1).nextID = tl.nextID := by
  refine ⟨?_, fun index => delete_nextID tl index⟩
  induction ops generalizing tl with
  | nil => simp [assignedIds, numAdds]
  | cons op rest ih =>
    cases op with
    | add title now =>
      simp only [assignedIds, numAdds, range_map_shift]
      rw [ih (applyAD tl (ADOp.add title now)),
        show (applyAD tl (ADOp.add title now)).nextID = tl.nextID + 1 from rfl]
    | delete index =>
      simp only [assignedIds, numAdds]
      rw [ih (applyAD tl (ADOp.delete index)),
        show (applyAD tl (ADOp.delete index)).nextID = tl.nextID from
          delete_nextID tl index]

/-! ## Panic-freedom (claim C9)

A second, bounds-checked semantics makes every Go slice/index operation
explicit: `goSlice`, `goGet`, `goSet` return `none` exactly when the
corresponding Go expression (`l[i:j]`, `l[i]`, `l[i] = v`) would panic.
Agreement with the total semantics shows no mutation ever panics. -/

/-- Go slice expression `l[i:j]`: panics unless `0 ≤ i ≤ j ≤ len(l)`. -/
def goSlice (l : List Todo) (i j : Nat) : Option (List Todo) :=
  if i ≤ j ∧ j ≤ l.length then some ((l.take j).drop i) else none

/-- Go index read `l[i]`: panics unless `i < len(l)`. -/
def goGet (l : List Todo) (i : Nat) : Option Todo := l[i]?

/-- Go index write `l[i] = t`: panics unless `i < len(l)`. -/
def goSet (l : List Todo) (i : Nat) (t : Todo) : Option (List Todo) :=
  if i < l.length then some (l.set i t) else none

/-- `Delete` with explicit bounds checks on its two slice expressions. -/
def TodoList.DeleteC (tl : TodoList) (index : Int) : Option (TodoList × Bool) :=
  if 0 ≤ index ∧ index < (tl.todos.length : Int) then
    match goSlice tl.todos 0 index.toNat,
        goSlice tl.todos (index.toNat + 1) tl.todos.length with
    | some a, some b => some ({ tl with todos := a ++ b }, true)
    | _, _ => none
  else some (tl, false)

/-- `Toggle` with explicit bounds checks on its read and write. -/
def TodoList.ToggleC (tl : TodoList) (index : Int) : Option (TodoList × Bool) :=
  if 0 ≤ index ∧ index < (tl.todos.length : Int) then
    match goGet tl.todos index.toNat with
    | some t =>
      match goSet tl.todos index.toNat { t with completed := !t.completed } with
      | some todos2 => some (TodoList.Sort { tl with todos := todos2 }, true)
      | none => none
    | none => none
  else some (tl, false)

/-- `Update` with explicit bounds checks on its read and write. -/
def TodoList.UpdateC (tl : TodoList) (index : Int) (title : String) : Option (TodoList × Bool) :=
  if 0 ≤ index ∧ index < (tl.todos.length : Int) then
    match goGet tl.todos index.toNat with
    | some t =>
      match goSet tl.todos index.toNat { t with title := title } with
      | some todos2 => some ({ tl with todos := todos2 }, true)
      | none => none
    | none => none
  else some (tl, false)

/-- The bounds-checked mutation semantics (`Add`/`Insert` contain no
index or slice expressions; the `Sort` pass iterates, never indexes). -/
def applyOpC (tl : TodoList) : Op → Option (TodoList × Bool)
  | Op.add title now => some (tl.Add title now)
  | Op.insert index title now => some (tl.Insert index title now)
  | Op.delete index => tl.DeleteC index
  | Op.toggle index => tl.ToggleC index
  | Op.update index title => tl.UpdateC index title

theorem set_toggle_eq {t : Todo} :
    ∀ (l : List Todo) (i : Nat), l[i]? = some t →
      l.set i { t with completed := !t.completed } = toggleAt l i := by
  intro l
  induction l with
  | nil => intro i h; simp at h
  | cons u rest ih =>
    intro i h
    cases i with
    | zero =>
      simp only [List.getElem?_cons_zero, Option.some.injEq] at h
      rw [← h]
      rfl
    | succ n =>
      simp only [List.getElem?_cons_succ] at h
      show u :: rest.set n _ = u :: toggleAt rest n
      rw [ih n h]

theorem set_update_eq {t : Todo} {title : String} :
    ∀ (l : List Todo) (i : Nat), l[i]? = some t →
      l.set i { t with title := title } = updateAt l i title := by
  intro l
  induction l with
  | nil => intro i h; simp at h
  | cons u rest ih =>
    intro i h
    cases i with
    | zero =>
      simp only [List.getElem?_cons_zero, Option.some.injEq] at h
      rw [← h]
      rfl
    | succ n =>
      simp only [List.getElem?_cons_succ] at h
      show u :: rest.set n _ = u :: updateAt rest n title
      rw [ih n h]

/-- Claim C9: every mutation, on every state and every index (negative
or past the end included), runs to completion without a panic: the
bounds-checked semantics never returns `none` and agrees with the total
semantics.  `Save` and `Load` likewise always return normally or with an
error value (they are total functions into `Except` in this model). -/
theorem no_panic (tl : TodoList) (op : Op) (fail : SaveFail) (target : Option FileData)
    (readFails backupFails : Bool) (disk : LoadDisk) :
    applyOpC tl op = some (applyOpT tl op) ∧
      ((TodoList.Save tl fail target).res = Except.ok () ∨
        ∃ e, (TodoList.Save tl fail target).res = Except.error e) ∧
      ((∃ tl2, (TodoList.Load tl readFails backupFails disk).1 = Except.ok tl2) ∨
        ∃ e, (TodoList.Load tl readFails backupFails disk).1 = Except.error e) := by
  refine ⟨?_, ?_, ?_⟩
  · cases op with
    | add title now => rfl
    | insert index title now => rfl
    | delete index =>
      by_cases hg : 0 ≤ index ∧ index < (tl.todos.length : Int)
      · have hle : index.toNat ≤ tl.todos.length := by omega
        have hlt : index.toNat + 1 ≤ tl.todos.length := by omega
        have h1 : goSlice tl.todos 0 index.toNat =
            some (tl.todos.take index.toNat) := by
          rw [goSlice, if_pos ⟨Nat.zero_le _, hle⟩, List.drop_zero]
        have h2 : goSlice tl.todos (index.toNat + 1) tl.todos.length =
            some (tl.todos.drop (index.toNat + 1)) := by
          rw [goSlice, if_pos ⟨hlt, Nat.le_refl _⟩, List.take_length]
        show tl.DeleteC index = some (tl.Delete index)
        rw [TodoList.DeleteC, if_pos hg, h1, h2, TodoList.Delete, if_pos hg]
      · show tl.DeleteC index = some (tl.Delete index)
        rw [TodoList.DeleteC, if_neg hg, TodoList.Delete, if_neg hg]
    | toggle index =>
      by_cases hg : 0 ≤ index ∧ index < (tl.todos.length : Int)
      · have hlt : index.toNat < tl.todos.length := by omega
        have hget : tl.todos[index.toNat]? = some tl.todos[index.toNat] :=
          List.getElem?_eq_getElem hlt
        show tl.ToggleC index = some (tl.Toggle index)
        rw [TodoList.ToggleC, if_pos hg, goGet, hget]
        show (match goSet tl.todos index.toNat _ with
          | some todos2 => some (TodoList.Sort { tl with todos := todos2 }, true)
          | none => none) = some (tl.Toggle index)
        rw [goSet, if_pos hlt, TodoList.Toggle, if_pos hg,
          set_toggle_eq tl.todos index.toNat hget]
      · show tl.ToggleC index = some (tl.Toggle index)
        rw [TodoList.ToggleC, if_neg hg, TodoList.Toggle, if_neg hg]
    | update index title =>
      by_cases hg : 0 ≤ index ∧ index < (tl.todos.length : Int)
      · have hlt : index.toNat < tl.todos.length := by omega
        have hget : tl.todos[index.toNat]? = some tl.todos[index.toNat] :=
          List.getElem?_eq_getElem hlt
        show tl.UpdateC index title = some (tl.Update index title)
        rw [TodoList.UpdateC, if_pos hg, goGet, hget]
        show (match goSet tl.todos index.toNat _ with
          | some todos2 => some ({ tl with todos := todos2 }, true)
          | none => none) = some (tl.Update index title)
        rw [goSet, if_pos hlt, TodoList.Update, if_pos hg,
          set_update_eq tl.todos index.toNat hget]
      · show tl.UpdateC index title = some (tl.Update index title)
        rw [TodoList.UpdateC, if_neg hg, TodoList.Update, if_neg hg]
  · cases (TodoList.Save tl fail target).res with
    | ok u => exact Or.inl rfl
    | error e => exact Or.inr ⟨e, rfl⟩
  · cases (TodoList.Load tl readFails backupFails disk).1 with
    | ok tl2 => exact Or.inl ⟨tl2, rfl⟩
    | error e => exact Or.inr ⟨e, rfl⟩

end JustDoIt
